import Mathlib

/-!
Verification of the OpenWeb crawl engine and page-extraction pipeline.

The TypeScript sources are shallowly embedded: pure functions become Lean
functions, SQLite tables become Lean lists of row structures, and statement
effects become explicit state transformations.  Platform primitives that the
repository only calls (the WHATWG `URL` parser, `crypto.sha256`) enter as
explicit parameters or as structured values that represent their results.
Timestamps are modelled as natural numbers (milliseconds); the repository
stores them as fixed-width ISO-8601 strings, whose lexicographic order agrees
with the numeric order SQLite relies on.
-/

set_option maxHeartbeats 1000000

namespace OpenWeb

/-! ### JavaScript string primitives

The sources use `String.prototype.startsWith`, `toLowerCase` and template
concatenation.  They are modelled on the character lists underlying Lean
strings so that every definition evaluates by kernel reduction.
`toLowerCase` is modelled on the Basic Latin range, which covers the ASCII
hostnames, tag names and robots paths the repository feeds it. -/

/-- JS `s.startsWith(pre)`. -/
def jsStartsWith (s pre : String) : Bool :=
  pre.data.isPrefixOf s.data

/-- JS `s.toLowerCase()` (Basic Latin). -/
def jsToLower (s : String) : String :=
  String.mk (s.data.map Char.toLower)

theorem char_toNat_ofNat_valid {n : Nat} (h : n.isValidChar) :
    (Char.ofNat n).toNat = n := by
  rw [Char.ofNat, dif_pos h]; rfl

theorem char_toLower_idem (c : Char) : c.toLower.toLower = c.toLower := by
  unfold Char.toLower
  by_cases h : c.toNat ≥ 65 ∧ c.toNat ≤ 90
  · rw [if_pos h]
    have htn : (Char.ofNat (c.toNat + 32)).toNat = c.toNat + 32 :=
      char_toNat_ofNat_valid (Or.inl (by omega))
    rw [if_neg (by omega)]
  · rw [if_neg h, if_neg h]

theorem jsToLower_idem (s : String) : jsToLower (jsToLower s) = jsToLower s := by
  simp only [jsToLower, List.map_map]
  congr 1
  exact List.map_congr_left fun c _ => char_toLower_idem c

/-! ### Robots rules — `src/packages/crawler/src/robots.ts` -/

/-- `RobotsRuleSet` from robots.ts: the parsed per-origin robots.txt data. -/
structure RobotsRuleSet where
  fetchedAt : Nat
  allow : List String
  disallow : List String
  crawlDelayMs : Option Nat
  sitemaps : List String
deriving DecidableEq, Repr

/-- Loop body of `longestMatchLength` in robots.ts:
`if (!rule || rule === "/") continue; if (target.startsWith(rule)) longest = Math.max(longest, rule.length)`. -/
def lmlStep (target : String) (longest : Nat) (rule : String) : Nat :=
  if rule = "" ∨ rule = "/" then longest
  else if jsStartsWith target rule then max longest rule.length
  else longest

/-- `longestMatchLength(target, rules)` from robots.ts: the length of the
longest rule that is a prefix of `target`, skipping empty rules and the bare
`"/"` rule; `0` if none matches.  The JS `for` loop accumulating into
`longest` is a left fold over the rules. -/
def longestMatchLength (target : String) (rules : List String) : Nat :=
  rules.foldl (lmlStep target) 0

/-- `RobotsManager.canCrawl`, restricted to the already-computed target string
`pathname + search` (the URL parsing part is `canCrawl` below). -/
def canCrawlTarget (target : String) (rules : RobotsRuleSet) : Bool :=
  let allowLen := longestMatchLength target rules.allow
  let disallowLen := longestMatchLength target rules.disallow
  if allowLen = 0 ∧ disallowLen = 0 then true
  else allowLen ≥ disallowLen

section LongestMatch

theorem lml_foldl_acc (target : String) (rules : List String) (acc : Nat) :
    rules.foldl (lmlStep target) acc = max acc (rules.foldl (lmlStep target) 0) := by
  induction rules generalizing acc with
  | nil => simp
  | cons r rs ih =>
    simp only [List.foldl_cons]
    rw [ih (lmlStep target acc r), ih (lmlStep target 0 r)]
    simp only [lmlStep]
    split
    · simp
    · split <;> omega

/-- Every non-trivial matching rule's length is a lower bound for
`longestMatchLength`. -/
theorem longestMatchLength_ge (target : String) (rules : List String)
    (rule : String) (hmem : rule ∈ rules) (hne : rule ≠ "") (hslash : rule ≠ "/")
    (hpre : jsStartsWith target rule = true) :
    rule.length ≤ longestMatchLength target rules := by
  induction hmem with
  | head rs =>
    rw [longestMatchLength, List.foldl_cons, lml_foldl_acc]
    simp only [lmlStep]
    rw [if_neg (by simp [hne, hslash]), if_pos hpre]
    omega
  | tail r hmem ih =>
    rw [longestMatchLength, List.foldl_cons, lml_foldl_acc]
    rw [longestMatchLength] at ih
    omega

/-- `longestMatchLength` is either `0` or realized by some matching rule. -/
theorem longestMatchLength_attained (target : String) (rules : List String) :
    longestMatchLength target rules = 0 ∨
      ∃ rule ∈ rules, rule ≠ "/" ∧ jsStartsWith target rule = true ∧
        rule.length = longestMatchLength target rules := by
  induction rules with
  | nil => exact Or.inl rfl
  | cons r rs ih =>
    rw [longestMatchLength, List.foldl_cons, lml_foldl_acc]
    rw [longestMatchLength] at ih
    simp only [lmlStep]
    by_cases htriv : r = "" ∨ r = "/"
    · rw [if_pos htriv]
      rcases ih with h0 | ⟨rule, hmem, hs, hp, hlen⟩
      · exact Or.inl (by omega)
      · exact Or.inr ⟨rule, List.mem_cons_of_mem _ hmem, hs, hp, by omega⟩
    · rw [if_neg htriv]
      push_neg at htriv
      by_cases hpre : jsStartsWith target r = true
      · rw [if_pos hpre]
        rcases ih with h0 | ⟨rule, hmem, hs, hp, hlen⟩
        · exact Or.inr ⟨r, List.mem_cons_self _ _, htriv.2, hpre, by omega⟩
        · by_cases hle : rule.length ≤ r.length
          · exact Or.inr ⟨r, List.mem_cons_self _ _, htriv.2, hpre, by omega⟩
          · exact Or.inr ⟨rule, List.mem_cons_of_mem _ hmem, hs, hp, by omega⟩
      · simp only [Bool.not_eq_true] at hpre
        rw [if_neg (by simp [hpre])]
        rcases ih with h0 | ⟨rule, hmem, hs, hp, hlen⟩
        · exact Or.inl (by omega)
        · exact Or.inr ⟨rule, List.mem_cons_of_mem _ hmem, hs, hp, by omega⟩

end LongestMatch

/-- The concrete ruleset from the claim: `Disallow: /private`,
`Allow: /private/ok`. -/
def c3Rules : RobotsRuleSet :=
  { fetchedAt := 0, allow := ["/private/ok"], disallow := ["/private"],
    crawlDelayMs := none, sitemaps := [] }

/-- C3: `canCrawl` compares the longest matching allow-rule length with the
longest matching disallow-rule length; both zero means allowed, otherwise
allowed iff allow ≥ disallow; matching rule lengths bound the comparison and
the maximum is attained by an actual matching rule (the empty rule `"/"` being
skipped); concretely, with `Disallow: /private` and `Allow: /private/ok`,
`/private/x` is blocked while `/public` and `/private/ok/doc` are allowed. -/
theorem canCrawl_longest_match (target : String) (rules : RobotsRuleSet) :
    (canCrawlTarget target rules = true ↔
      (longestMatchLength target rules.allow = 0 ∧
        longestMatchLength target rules.disallow = 0) ∨
      longestMatchLength target rules.allow ≥
        longestMatchLength target rules.disallow) ∧
    (∀ rule ∈ rules.allow, rule ≠ "" → rule ≠ "/" → jsStartsWith target rule = true →
      rule.length ≤ longestMatchLength target rules.allow) ∧
    (longestMatchLength target rules.disallow = 0 ∨
      ∃ rule ∈ rules.disallow, rule ≠ "/" ∧ jsStartsWith target rule = true ∧
        rule.length = longestMatchLength target rules.disallow) ∧
    (canCrawlTarget "/private/x" c3Rules = false ∧
      canCrawlTarget "/public" c3Rules = true ∧
      canCrawlTarget "/private/ok/doc" c3Rules = true) := by
  refine ⟨?_, fun r hm h1 h2 h3 => longestMatchLength_ge target rules.allow r hm h1 h2 h3,
    longestMatchLength_attained target rules.disallow, by decide⟩
  simp only [canCrawlTarget]
  split
  · simp_all
  · next h =>
    simp only [decide_eq_true_eq]
    constructor
    · exact Or.inr
    · rintro (⟨h1, h2⟩ | h1)
      · exact absurd ⟨h1, h2⟩ h
      · exact h1

/-- Witness for C3 at a concrete target and ruleset. -/
theorem canCrawl_longest_match_witness :
    ("/private/ok" : String).length ≤ longestMatchLength "/private/ok/doc" c3Rules.allow ∧
      canCrawlTarget "/private/x" c3Rules = false :=
  ⟨(canCrawl_longest_match "/private/ok/doc" c3Rules).2.1 "/private/ok"
      (by decide) (by decide) (by decide) (by decide),
    (canCrawl_longest_match "/private/ok/doc" c3Rules).2.2.2.1⟩

/-! ### Parsed URLs

The repository calls the platform's WHATWG `URL` class.  A successfully parsed
URL is modelled by its components; `new URL(input)` itself is a platform
primitive and enters as an explicit `parseURL : String → Option URLRec`
parameter (`none` models the `TypeError` thrown on unparseable input).
The query is carried as the decoded key/value pairs that `url.searchParams`
exposes, in order. -/

/-- Components of a parsed WHATWG URL.  `protocol` keeps the trailing colon
(`"https:"`), `port` is `""` when absent, `fragment` omits the leading `#`. -/
structure URLRec where
  protocol : String
  hostname : String
  port : String
  pathname : String
  query : List (String × String)
  fragment : String
deriving DecidableEq, Repr

/-- Serialization of `url.searchParams` back into `url.search`: empty, or
`?k=v&…` (components shown decoded; percent-encoding is the platform's). -/
def serializeQuery : List (String × String) → String
  | [] => ""
  | ps => "?" ++ String.intercalate "&" (ps.map fun p => p.1 ++ "=" ++ p.2)

/-- `url.toString()` for the modelled components. -/
def urlToString (u : URLRec) : String :=
  u.protocol ++ "//" ++ u.hostname ++ (if u.port = "" then "" else ":" ++ u.port) ++
    u.pathname ++ serializeQuery u.query ++
    (if u.fragment = "" then "" else "#" ++ u.fragment)

/-- `RobotsManager.canCrawl(url, rules)` from robots.ts: `new URL(url)` with no
guard (an unparseable `url` propagates the parser's exception, modelled as
`Except.error`), then the longest-match comparison on `pathname + search`. -/
def canCrawl (parseURL : String → Option URLRec) (url : String)
    (rules : RobotsRuleSet) : Except String Bool :=
  match parseURL url with
  | none => .error "Invalid URL"
  | some parsed =>
    .ok (canCrawlTarget (parsed.pathname ++ serializeQuery parsed.query) rules)

/-! ### URL utilities — `src/unnamed/part_004` (`url-utils.ts`) -/

/-- `TRACKING_PARAMS` from url-utils.ts. -/
def TRACKING_PARAMS : List String :=
  ["fbclid", "gclid", "igshid", "mc_cid", "mc_eid", "ref", "ref_src", "source", "spm"]

/-- `NUISANCE_PATH_PATTERNS` from url-utils.ts. -/
def NUISANCE_PATH_PATTERNS : List String :=
  ["/wp-json/", "/api/", "/graphql", "/cdn-cgi/", "/cart", "/checkout",
    "/login", "/signin", "/account", "/admin"]

/-- `NUISANCE_EXACT` from url-utils.ts. -/
def NUISANCE_EXACT : List String := ["/robots.txt", "/sitemap.xml", "/ads.txt"]

/-- `isNuisanceUrl(url)` from url-utils.ts: parses the URL inside
`try { … } catch { return true }`, so an unparseable URL counts as nuisance;
otherwise the lowercased path is matched exactly against `NUISANCE_EXACT` and
by substring against `NUISANCE_PATH_PATTERNS`. -/
def isNuisanceUrl (parseURL : String → Option URLRec) (url : String) : Bool :=
  match parseURL url with
  | none => true
  | some parsed =>
    let path := jsToLower parsed.pathname
    if NUISANCE_EXACT.contains path then true
    else if NUISANCE_PATH_PATTERNS.any (fun pattern => decide (pattern.data <:+: path.data))
      then true
    else false

/-- C10: `canCrawl` needs a parseable URL — on any string the parser accepts
it returns a policy boolean without raising, and on any string the parser
rejects it propagates the error instead of deciding, whereas `isNuisanceUrl`
catches the same parse failure and reports the input as nuisance. -/
theorem canCrawl_parse_precondition (parseURL : String → Option URLRec)
    (url : String) (rules : RobotsRuleSet) :
    match parseURL url with
    | some _ => ∃ b : Bool, canCrawl parseURL url rules = Except.ok b
    | none =>
        (∃ e, canCrawl parseURL url rules = Except.error e) ∧
          isNuisanceUrl parseURL url = true := by
  cases h : parseURL url with
  | none =>
    refine ⟨⟨"Invalid URL", ?_⟩, ?_⟩ <;> simp [canCrawl, isNuisanceUrl, h]
  | some parsed =>
    exact ⟨canCrawlTarget (parsed.pathname ++ serializeQuery parsed.query) rules,
      by simp [canCrawl, h]⟩

/-! ### Crawl queue — `WebxStore` in `src/unnamed/part_005` (store)

The `crawl_queue` table is a list of rows.  `id` is the PRIMARY KEY and
`idx_crawl_queue_job_url` is a UNIQUE index on `(job_id, url)`; INSERT OR
IGNORE therefore drops an insert that conflicts with either.  The sha-256
16-hex-character hash behind `stableId` is the platform's and enters as a
parameter `h`; `new URL(url).hostname` likewise enters as `hostOf`. -/

/-- `QueueStatus` from the store. -/
inductive QueueStatus where
  | pending
  | processing
  | done
  | failed
deriving DecidableEq, Repr

/-- One row of `crawl_queue`.  `nextFetchAt` is in epoch milliseconds; the
store keeps it as a fixed-width ISO-8601 string whose lexicographic order
(used by `next_fetch_at <= ?`) matches the numeric order. -/
structure CrawlQueueRow where
  id : String
  jobId : String
  url : String
  depth : Int
  priority : Int
  nextFetchAt : Nat
  domain : String
  status : QueueStatus
  retries : Nat
  lastError : Option String
deriving DecidableEq, Repr

/-- The row `enqueueUrl` inserts: status `pending`, zero retries,
`next_fetch_at = now`. -/
def enqueuedRow (id jobId url : String) (depth priority : Int) (now : Nat)
    (domain : String) : CrawlQueueRow :=
  { id := id, jobId := jobId, url := url, depth := depth, priority := priority,
    nextFetchAt := now, domain := domain, status := .pending, retries := 0,
    lastError := none }

/-- `WebxStore.enqueueUrl(jobId, url, depth, priority)`:
`id = stableId(jobId + ":" + url)` (a sha256 prefix, parameter `h`),
`domain = new URL(url).hostname` (parameter `hostOf`), then
`INSERT OR IGNORE INTO crawl_queue ... VALUES (..., 'pending', 0)` with
`next_fetch_at = now`.  The insert is ignored when the `id` primary key or
the unique `(job_id, url)` index already has a matching row. -/
def enqueueUrl (h : String → String) (hostOf : String → String)
    (table : List CrawlQueueRow) (jobId url : String) (depth priority : Int)
    (now : Nat) : List CrawlQueueRow :=
  let domain := hostOf url
  let id := h (jobId ++ ":" ++ url)
  if table.any (fun r => r.id == id || (r.jobId == jobId && r.url == url)) then
    table
  else
    table ++ [enqueuedRow id jobId url depth priority now domain]

/-- One requested `enqueueUrl` call. -/
structure EnqueueCall where
  jobId : String
  url : String
  depth : Int
  priority : Int
  now : Nat

/-- A sequence of `enqueueUrl` calls against the same table. -/
def enqueueMany (h : String → String) (hostOf : String → String)
    (table : List CrawlQueueRow) (calls : List EnqueueCall) : List CrawlQueueRow :=
  calls.foldl (fun t c => enqueueUrl h hostOf t c.jobId c.url c.depth c.priority c.now) table

/-- Predicate for the unique-index key: a row for one `(jobId, url)` pair. -/
def sameJobUrl (jobId url : String) (r : CrawlQueueRow) : Bool :=
  r.jobId == jobId && r.url == url

theorem enqueueUrl_countP_le (h hostOf : String → String)
    (table : List CrawlQueueRow) (jobId url : String) (depth priority : Int)
    (now : Nat) (j u : String) (hle : table.countP (sameJobUrl j u) ≤ 1) :
    (enqueueUrl h hostOf table jobId url depth priority now).countP (sameJobUrl j u) ≤ 1 := by
  simp only [enqueueUrl]
  split
  · exact hle
  · next hconf =>
    rw [List.countP_append]
    simp only [List.countP_cons, List.countP_nil, enqueuedRow, sameJobUrl]
    by_cases hju : j = jobId ∧ u = url
    · have hzero : table.countP (sameJobUrl j u) = 0 := by
        rw [List.countP_eq_zero]
        intro r hr
        simp only [List.any_eq_true, not_exists, not_and, Bool.not_eq_true] at hconf
        have := hconf r hr
        simp only [sameJobUrl, Bool.or_eq_false_iff, Bool.and_eq_false_iff] at this ⊢
        rcases hju with ⟨rfl, rfl⟩
        simp only [Bool.and_eq_true, beq_iff_eq, not_and]
        intro h1
        rcases (by simpa using this.2 : ¬r.jobId = j ∨ ¬r.url = u) with hc | hc
        · exact absurd h1 hc
        · exact hc
      simp only [hzero]
      split <;> omega
    · rw [if_neg]
      · omega
      · simp only [Bool.and_eq_true, beq_iff_eq]
        rintro ⟨rfl, rfl⟩
        exact hju ⟨rfl, rfl⟩

theorem enqueueMany_countP_le (h hostOf : String → String)
    (table : List CrawlQueueRow) (calls : List EnqueueCall) (j u : String)
    (hle : table.countP (sameJobUrl j u) ≤ 1) :
    (enqueueMany h hostOf table calls).countP (sameJobUrl j u) ≤ 1 := by
  induction calls generalizing table with
  | nil => exact hle
  | cons c cs ih =>
    exact ih _ (enqueueUrl_countP_le h hostOf table c.jobId c.url c.depth c.priority c.now j u hle)

/-- C1: replaying any sequence of `enqueueUrl` calls from an empty queue
leaves at most one `crawl_queue` row per `(jobId, url)` pair; a call that
finds an existing row for its pair (in particular any repeat call) leaves the
whole table — hence that row's `depth` and `priority` — unchanged; and any
row a call adds carries the stable id `h(jobId + ":" + url)`. -/
theorem enqueueUrl_unique_per_job_url (h hostOf : String → String)
    (calls : List EnqueueCall) (j u : String) :
    ((enqueueMany h hostOf [] calls).countP (sameJobUrl j u) ≤ 1) ∧
    (∀ table : List CrawlQueueRow, (∃ r ∈ table, sameJobUrl j u r = true) →
      ∀ depth priority now,
        enqueueUrl h hostOf table j u depth priority now = table) ∧
    (∀ table depth priority now, ∀ r ∈ enqueueUrl h hostOf table j u depth priority now,
      r ∈ table ∨ r.id = h (j ++ ":" ++ u)) := by
  refine ⟨enqueueMany_countP_le h hostOf [] calls j u (by simp), ?_, ?_⟩
  · rintro table ⟨r, hr, hru⟩ depth priority now
    simp only [enqueueUrl]
    rw [if_pos]
    rw [List.any_eq_true]
    refine ⟨r, hr, ?_⟩
    simp only [sameJobUrl] at hru
    simp [hru]
  · intro table depth priority now r hr
    simp only [enqueueUrl] at hr
    split at hr
    · exact Or.inl hr
    · rw [List.mem_append] at hr
      rcases hr with hr | hr
      · exact Or.inl hr
      · simp only [List.mem_singleton] at hr
        subst hr
        exact Or.inr rfl

/-- Witness for C1: two identical calls starting from the empty table leave a
single row, and the repeat call is a no-op on the table it found. -/
theorem enqueueUrl_unique_per_job_url_witness :
    ((enqueueMany (fun s => s) (fun _ => "example.com") []
        [⟨"job1", "https://example.com/docs", 0, 100, 5⟩,
         ⟨"job1", "https://example.com/docs", 0, 80, 9⟩]).countP
      (sameJobUrl "job1" "https://example.com/docs") ≤ 1) ∧
    enqueueUrl (fun s => s) (fun _ => "example.com")
        [enqueuedRow "job1:https://example.com/docs" "job1"
          "https://example.com/docs" 0 100 5 "example.com"]
        "job1" "https://example.com/docs" 0 80 9 =
      [enqueuedRow "job1:https://example.com/docs" "job1"
        "https://example.com/docs" 0 100 5 "example.com"] := by
  refine ⟨(enqueueUrl_unique_per_job_url (fun s => s) (fun _ => "example.com")
      [⟨"job1", "https://example.com/docs", 0, 100, 5⟩,
       ⟨"job1", "https://example.com/docs", 0, 80, 9⟩] "job1" "https://example.com/docs").1,
    (enqueueUrl_unique_per_job_url (fun s => s) (fun _ => "example.com")
      [] "job1" "https://example.com/docs").2.1 _ ?_ 0 80 9⟩
  exact ⟨enqueuedRow "job1:https://example.com/docs" "job1"
    "https://example.com/docs" 0 100 5 "example.com", by decide, by decide⟩

/-- Eligibility in `claimNextQueueItem`'s SELECT:
`job_id = ? AND status = 'pending' AND next_fetch_at <= now`. -/
def eligibleRow (jobId : String) (now : Nat) (r : CrawlQueueRow) : Bool :=
  r.jobId == jobId && r.status == QueueStatus.pending && r.nextFetchAt ≤ now

/-- Strict "comes before" of the SELECT's
`ORDER BY priority DESC, depth ASC, next_fetch_at ASC`. -/
def queueBefore (a b : CrawlQueueRow) : Bool :=
  a.priority > b.priority ||
    (a.priority == b.priority &&
      (a.depth < b.depth || (a.depth == b.depth && a.nextFetchAt < b.nextFetchAt)))

/-- `ORDER BY … LIMIT 1`: the first row no other row strictly precedes.  SQLite
leaves the tie-break unspecified; the model resolves ties by table order. -/
def selectFirst : List CrawlQueueRow → Option CrawlQueueRow :=
  List.foldl
    (fun best r =>
      match best with
      | none => some r
      | some b => if queueBefore r b then some r else some b)
    none

/-- `WebxStore.claimNextQueueItem(jobId)`: select the first eligible row under
the ordering, `UPDATE crawl_queue SET status='processing' WHERE id = row.id`,
and return `{...row, status: "processing"}`; with no eligible row, return
nothing and touch nothing. -/
def claimNextQueueItem (table : List CrawlQueueRow) (jobId : String) (now : Nat) :
    Option CrawlQueueRow × List CrawlQueueRow :=
  match selectFirst (table.filter (eligibleRow jobId now)) with
  | none => (none, table)
  | some row =>
    (some { row with status := .processing },
      table.map fun r => if r.id == row.id then { r with status := .processing } else r)

theorem queueBefore_iff (a b : CrawlQueueRow) :
    queueBefore a b = true ↔
      b.priority < a.priority ∨
        (a.priority = b.priority ∧
          (a.depth < b.depth ∨ (a.depth = b.depth ∧ a.nextFetchAt < b.nextFetchAt))) := by
  simp [queueBefore]

theorem queueBefore_false_iff (a b : CrawlQueueRow) :
    queueBefore a b = false ↔
      ¬(b.priority < a.priority ∨
        (a.priority = b.priority ∧
          (a.depth < b.depth ∨ (a.depth = b.depth ∧ a.nextFetchAt < b.nextFetchAt)))) := by
  rw [← queueBefore_iff]
  simp

theorem queueBefore_trans (a b c : CrawlQueueRow)
    (hab : queueBefore a b = true) (hbc : queueBefore b c = true) :
    queueBefore a c = true := by
  rw [queueBefore_iff] at *
  omega

theorem queueBefore_irrefl (a : CrawlQueueRow) : queueBefore a a = false := by
  rw [queueBefore_false_iff]
  omega

theorem queueBefore_neg_trans (r b c : CrawlQueueRow)
    (hrb : queueBefore r b = false) (hrc : queueBefore r c = true) :
    queueBefore b c = true := by
  rw [queueBefore_false_iff] at hrb
  rw [queueBefore_iff] at *
  omega

/-- Loop body of `selectFirst`. -/
def selectStep (best : Option CrawlQueueRow) (r : CrawlQueueRow) : Option CrawlQueueRow :=
  match best with
  | none => some r
  | some b => if queueBefore r b then some r else some b

theorem selectFirst_eq_foldl (l : List CrawlQueueRow) :
    selectFirst l = l.foldl selectStep none := rfl

theorem selectStep_foldl_some (l : List CrawlQueueRow) (b : CrawlQueueRow) :
    ∃ c, l.foldl selectStep (some b) = some c ∧ (c = b ∨ c ∈ l) ∧
      queueBefore b c = false ∧ ∀ x ∈ l, queueBefore x c = false := by
  induction l generalizing b with
  | nil => exact ⟨b, rfl, Or.inl rfl, queueBefore_irrefl b, by simp⟩
  | cons r rs ih =>
    simp only [List.foldl_cons, selectStep]
    by_cases hrb : queueBefore r b = true
    · rw [if_pos hrb]
      obtain ⟨c, hc, hmem, hrc, hall⟩ := ih r
      refine ⟨c, hc, ?_, ?_, ?_⟩
      · rcases hmem with rfl | hmem
        · exact Or.inr (List.mem_cons_self _ _)
        · exact Or.inr (List.mem_cons_of_mem _ hmem)
      · by_contra hbc
        simp only [Bool.not_eq_false] at hbc
        have := queueBefore_trans r b c hrb hbc
        rw [hrc] at this
        exact Bool.false_ne_true this
      · intro x hx
        rcases List.mem_cons.mp hx with rfl | hx
        · exact hrc
        · exact hall x hx
    · simp only [Bool.not_eq_true] at hrb
      rw [if_neg (by simp [hrb])]
      obtain ⟨c, hc, hmem, hbc, hall⟩ := ih b
      refine ⟨c, hc, ?_, hbc, ?_⟩
      · rcases hmem with rfl | hmem
        · exact Or.inl rfl
        · exact Or.inr (List.mem_cons_of_mem _ hmem)
      · intro x hx
        rcases List.mem_cons.mp hx with rfl | hx
        · by_contra hxc
          simp only [Bool.not_eq_false] at hxc
          have := queueBefore_neg_trans x b c hrb hxc
          rw [hbc] at this
          exact Bool.false_ne_true this
        · exact hall x hx

/-- On a nonempty list, `selectFirst` yields a member that no other member
strictly precedes under the ordering. -/
theorem selectFirst_spec (l : List CrawlQueueRow) (row : CrawlQueueRow)
    (hrow : selectFirst l = some row) :
    row ∈ l ∧ ∀ x ∈ l, queueBefore x row = false := by
  cases l with
  | nil => cases hrow
  | cons r rs =>
    rw [selectFirst_eq_foldl, List.foldl_cons] at hrow
    obtain ⟨c, hc, hmem, hrc, hall⟩ := selectStep_foldl_some rs r
    rw [show selectStep none r = some r from rfl] at hrow
    rw [hc] at hrow
    cases hrow
    refine ⟨?_, ?_⟩
    · rcases hmem with rfl | hmem
      · exact List.mem_cons_self _ _
      · exact List.mem_cons_of_mem _ hmem
    · intro x hx
      rcases List.mem_cons.mp hx with rfl | hx
      · exact hrc
      · exact hall x hx

theorem selectFirst_none (l : List CrawlQueueRow) (hrow : selectFirst l = none) :
    l = [] := by
  cases l with
  | nil => rfl
  | cons r rs =>
    rw [selectFirst_eq_foldl, List.foldl_cons,
      show selectStep none r = some r from rfl] at hrow
    obtain ⟨c, hc, -, -, -⟩ := selectStep_foldl_some rs r
    rw [hc] at hrow
    cases hrow

/-- C4: `claimNextQueueItem(jobId)` either returns nothing and leaves the
table untouched (exactly when no row of the job is `pending` with
`next_fetch_at ≤ now`), or picks an eligible row that no other eligible row
strictly precedes under `priority DESC, depth ASC, next_fetch_at ASC`, flips
precisely the rows carrying its id (its primary key) to `processing`, leaves
every other row in place, and returns the claimed row marked `processing`. -/
theorem claimNextQueueItem_spec (table : List CrawlQueueRow) (jobId : String) (now : Nat) :
    match claimNextQueueItem table jobId now with
    | (none, table2) =>
        table2 = table ∧ ∀ r ∈ table, eligibleRow jobId now r = false
    | (some item, table2) =>
        item.status = QueueStatus.processing ∧
        ∃ row ∈ table, eligibleRow jobId now row = true ∧
          item = { row with status := QueueStatus.processing } ∧
          (∀ x ∈ table, eligibleRow jobId now x = true → queueBefore x row = false) ∧
          table2 = table.map (fun r =>
            if r.id == row.id then { r with status := QueueStatus.processing } else r) ∧
          (∀ x ∈ table, x.id ≠ row.id → x ∈ table2) := by
  unfold claimNextQueueItem
  cases hsel : selectFirst (table.filter (eligibleRow jobId now)) with
  | none =>
    have hnil := selectFirst_none _ hsel
    refine ⟨rfl, fun r hr => ?_⟩
    by_contra he
    simp only [Bool.not_eq_false] at he
    have : r ∈ List.filter (eligibleRow jobId now) table := List.mem_filter.mpr ⟨hr, he⟩
    rw [hnil] at this
    cases this
  | some row =>
    obtain ⟨hmem, hall⟩ := selectFirst_spec _ _ hsel
    rw [List.mem_filter] at hmem
    refine ⟨rfl, row, hmem.1, hmem.2, rfl, ?_, rfl, ?_⟩
    · intro x hx hex
      exact hall x (List.mem_filter.mpr ⟨hx, hex⟩)
    · intro x hx hxid
      have : (if x.id == row.id then { x with status := QueueStatus.processing } else x) = x := by
        rw [if_neg]
        simp [hxid]
      rw [← this]
      exact List.mem_map_of_mem _ hx

/-- Witness for C4 on a two-row table: the higher-priority eligible row is
claimed (status `processing`) and some eligible row exists. -/
theorem claimNextQueueItem_spec_witness :
    ({ enqueuedRow "idB" "job1" "https://example.com/b" 0 120 5 "example.com" with
        status := QueueStatus.processing } : CrawlQueueRow).status =
      QueueStatus.processing ∧
    ∃ row ∈ [enqueuedRow "idA" "job1" "https://example.com/a" 0 100 5 "example.com",
             enqueuedRow "idB" "job1" "https://example.com/b" 0 120 5 "example.com"],
      eligibleRow "job1" 10 row = true := by
  have h := claimNextQueueItem_spec
    [enqueuedRow "idA" "job1" "https://example.com/a" 0 100 5 "example.com",
     enqueuedRow "idB" "job1" "https://example.com/b" 0 120 5 "example.com"] "job1" 10
  rw [show claimNextQueueItem
      [enqueuedRow "idA" "job1" "https://example.com/a" 0 100 5 "example.com",
       enqueuedRow "idB" "job1" "https://example.com/b" 0 120 5 "example.com"] "job1" 10 =
      (some { enqueuedRow "idB" "job1" "https://example.com/b" 0 120 5 "example.com" with
          status := QueueStatus.processing },
        [enqueuedRow "idA" "job1" "https://example.com/a" 0 100 5 "example.com",
         { enqueuedRow "idB" "job1" "https://example.com/b" 0 120 5 "example.com" with
            status := QueueStatus.processing }]) from by decide] at h
  obtain ⟨h1, row, hrow, helig, -⟩ := h
  exact ⟨h1, row, hrow, helig⟩


/-- Row transformation of `UPDATE crawl_queue SET status='failed', retries=?,
last_error=? WHERE id=?` on one row. -/
def failUpdateFailed (id error : String) (retries : Nat) (r : CrawlQueueRow) :
    CrawlQueueRow :=
  if r.id == id then
    { r with status := .failed, retries := retries, lastError := some error }
  else r

/-- Row transformation of `UPDATE crawl_queue SET status='pending', retries=?,
last_error=?, next_fetch_at=? WHERE id=?` on one row. -/
def failUpdatePending (id error : String) (retries nextFetchAt : Nat)
    (r : CrawlQueueRow) : CrawlQueueRow :=
  if r.id == id then
    { r with status := .pending, retries := retries, lastError := some error,
             nextFetchAt := nextFetchAt }
  else r

/-- `WebxStore.failQueueItem(id, error, retryDelayMs = 1500)`:
read the row's `retries` (`?? 0`), increment; at `retries ≥ 3` mark the row
`failed` recording `last_error`; otherwise set it back to `pending` with
`next_fetch_at = now + retryDelayMs * retries`.  Both UPDATEs filter on the
`id` primary key, modelled as a map over the table. -/
def failQueueItem (table : List CrawlQueueRow) (id error : String)
    (now : Nat) (retryDelayMs : Nat := 1500) : List CrawlQueueRow :=
  let row? := table.find? fun r => r.id == id
  let retries := (match row? with | some r => r.retries | none => 0) + 1
  if retries ≥ 3 then
    table.map (failUpdateFailed id error retries)
  else
    table.map (failUpdatePending id error retries (now + retryDelayMs * retries))

theorem failUpdateFailed_id (id error : String) (retries : Nat) (x : CrawlQueueRow) :
    (failUpdateFailed id error retries x).id = x.id := by
  unfold failUpdateFailed
  split <;> rfl

theorem failUpdatePending_id (id error : String) (retries nextFetchAt : Nat)
    (x : CrawlQueueRow) :
    (failUpdatePending id error retries nextFetchAt x).id = x.id := by
  unfold failUpdatePending
  split <;> rfl

theorem find_map_id_pred (table : List CrawlQueueRow) (id : String)
    (f : CrawlQueueRow → CrawlQueueRow) (hf : ∀ x, (f x).id = x.id) :
    (table.map f).find? (fun x => x.id == id) =
      (table.find? (fun x => x.id == id)).map f := by
  induction table with
  | nil => rfl
  | cons r rs ih =>
    rw [List.map_cons, List.find?_cons, List.find?_cons, hf r]
    cases hid : (r.id == id) with
    | true => rfl
    | false => exact ih

/-- The row `failQueueItem` produces from row `r` on one call. -/
def failedRowStep (r : CrawlQueueRow) (error : String) (now retryDelayMs : Nat) :
    CrawlQueueRow :=
  if r.retries + 1 ≥ 3 then
    { r with status := .failed, retries := r.retries + 1, lastError := some error }
  else
    { r with status := .pending, retries := r.retries + 1, lastError := some error,
             nextFetchAt := now + retryDelayMs * (r.retries + 1) }

theorem failQueueItem_find (table : List CrawlQueueRow) (id error : String)
    (now retryDelayMs : Nat) (r : CrawlQueueRow)
    (hfind : table.find? (fun x => x.id == id) = some r) :
    (failQueueItem table id error now retryDelayMs).find? (fun x => x.id == id) =
      some (failedRowStep r error now retryDelayMs) := by
  have hrid : (r.id == id) = true := by
    have := List.find?_some hfind
    simpa using this
  unfold failQueueItem
  rw [hfind]
  simp only
  by_cases h3 : r.retries + 1 ≥ 3
  · rw [if_pos h3, find_map_id_pred table id _ (failUpdateFailed_id id error _), hfind]
    show some (failUpdateFailed id error (r.retries + 1) r) = _
    unfold failUpdateFailed failedRowStep
    rw [if_pos hrid, if_pos h3]
  · rw [if_neg h3, find_map_id_pred table id _ (failUpdatePending_id id error _ _), hfind]
    show some (failUpdatePending id error (r.retries + 1)
      (now + retryDelayMs * (r.retries + 1)) r) = _
    unfold failUpdatePending failedRowStep
    rw [if_pos hrid, if_neg h3]

/-- C5: one `failQueueItem(id, error, retryDelayMs)` call turns the row with
that id into `failedRowStep` of it — retries incremented; `failed` with the
error recorded once the incremented count reaches 3, else back to `pending`
with `next_fetch_at = now + retries·retryDelayMs` — and three consecutive
calls starting from a fresh row (`retries = 0`) leave it `failed` with
`retries = 3`. -/
theorem failQueueItem_spec (table : List CrawlQueueRow) (id error : String)
    (now retryDelayMs : Nat) (r : CrawlQueueRow)
    (hfind : table.find? (fun x => x.id == id) = some r) :
    ((failQueueItem table id error now retryDelayMs).find? (fun x => x.id == id) =
      some (failedRowStep r error now retryDelayMs)) ∧
    (r.retries + 1 ≥ 3 →
      (failedRowStep r error now retryDelayMs).status = QueueStatus.failed ∧
      (failedRowStep r error now retryDelayMs).lastError = some error) ∧
    (r.retries + 1 < 3 →
      (failedRowStep r error now retryDelayMs).status = QueueStatus.pending ∧
      (failedRowStep r error now retryDelayMs).retries = r.retries + 1 ∧
      (failedRowStep r error now retryDelayMs).nextFetchAt =
        now + retryDelayMs * (r.retries + 1)) ∧
    (r.retries = 0 → ∀ e2 e3 : String, ∀ n2 n3 d2 d3 : Nat,
      (failQueueItem (failQueueItem (failQueueItem table id error now retryDelayMs)
          id e2 n2 d2) id e3 n3 d3).find? (fun x => x.id == id) =
        some { r with status := .failed, retries := 3, lastError := some e3,
                      nextFetchAt := n2 + d2 * 2 }) := by
  refine ⟨failQueueItem_find table id error now retryDelayMs r hfind, ?_, ?_, ?_⟩
  · intro h3
    unfold failedRowStep
    rw [if_pos h3]
    exact ⟨rfl, rfl⟩
  · intro h3
    unfold failedRowStep
    rw [if_neg (by omega)]
    exact ⟨rfl, rfl, rfl⟩
  · intro h0 e2 e3 n2 n3 d2 d3
    have h1 := failQueueItem_find table id error now retryDelayMs r hfind
    have h2 := failQueueItem_find _ id e2 n2 d2 _ h1
    have h3 := failQueueItem_find _ id e3 n3 d3 _ h2
    rw [h3]
    congr 1
    simp [failedRowStep, h0]

/-- Witness for C5: a fresh single-row table; the third failure call leaves
the row `failed` with three retries. -/
theorem failQueueItem_spec_witness :
    (failQueueItem (failQueueItem (failQueueItem
        [enqueuedRow "idA" "job1" "https://example.com/a" 0 100 5 "example.com"]
        "idA" "boom" 100 1500) "idA" "boom2" 200 1500) "idA" "boom3" 300 1500).find?
      (fun x => x.id == "idA") =
      some { enqueuedRow "idA" "job1" "https://example.com/a" 0 100 5 "example.com" with
        status := .failed, retries := 3, lastError := some "boom3",
        nextFetchAt := 200 + 1500 * 2 } := by
  exact (failQueueItem_spec
    [enqueuedRow "idA" "job1" "https://example.com/a" 0 100 5 "example.com"]
    "idA" "boom" 100 1500
    (enqueuedRow "idA" "job1" "https://example.com/a" 0 100 5 "example.com")
    (by decide)).2.2.2 (by decide) "boom2" "boom3" 200 300 1500 1500

/-! ### `normalizeCrawlUrl` — `src/unnamed/part_004` (`url-utils.ts`)

`normalizeCrawlUrl(input, base?)` parses with the platform `URL` class and
then mutates the parsed object: clear the fragment, lowercase the host, drop
a default port, filter and sort the query pairs, collapse and trim the path.
The model starts from the parsed components (`URLRec`); each field of the
result below corresponds to one mutation of the source, which touch disjoint
components.  The sort comparator `(a, b) => a.localeCompare(b)` is modelled
as code-point order, and JS `Array.prototype.sort` (stable since ES2019) as
a stable insertion sort — any stable sort under the same total preorder
produces the same list. -/

/-- Key filter of the query loop: drop keys whose lowercase form starts with
`utm_` or is in `TRACKING_PARAMS`; keep the rest. -/
def keepQueryKey (key : String) : Bool :=
  let normalizedKey := jsToLower key
  !(jsStartsWith normalizedKey "utm_") && !(TRACKING_PARAMS.contains normalizedKey)

/-- Code-point comparison of character lists; `charListLe a b` models
`a.localeCompare(b) <= 0` for the comparator of the query sort. -/
def charListLe : List Char → List Char → Bool
  | [], _ => true
  | _ :: _, [] => false
  | a :: as, b :: bs =>
    if a.toNat < b.toNat then true
    else if b.toNat < a.toNat then false
    else charListLe as bs

/-- `a.localeCompare(b) <= 0`, modelled as code-point order. -/
def strLe (a b : String) : Bool := charListLe a.data b.data

/-- Stable insertion of one pair into a key-sorted list: the new pair goes
before the first resident with a key not below its own, keeping earlier pairs
with equal keys in front. -/
def insertPair (p : String × String) : List (String × String) → List (String × String)
  | [] => [p]
  | q :: qs => if strLe p.1 q.1 then p :: q :: qs else q :: insertPair p qs

/-- Stable sort by key of `[...filtered.entries()].sort(([a],[b]) => a.localeCompare(b))`. -/
def sortPairs : List (String × String) → List (String × String)
  | [] => []
  | p :: ps => insertPair p (sortPairs ps)


/-- `replace(/\/+/g, "/")`: collapse every run of slashes to one slash. -/
def collapseSlashes : List Char → List Char
  | [] => []
  | [c] => [c]
  | a :: b :: t =>
    if a = '/' ∧ b = '/' then collapseSlashes (b :: t)
    else a :: collapseSlashes (b :: t)

/-- `replace(/\/$/, "")`: drop one trailing slash if present. -/
def stripTrailingSlash : List Char → List Char
  | [] => []
  | [c] => if c = '/' then [] else [c]
  | a :: b :: t => a :: stripTrailingSlash (b :: t)

/-- Detector for an adjacent pair of slashes. -/
def hasDoubleSlash : List Char → Bool
  | [] => false
  | [_] => false
  | a :: b :: t => (a = '/' ∧ b = '/') || hasDoubleSlash (b :: t)

/-- The path cleanup:
`const cleanedPath = url.pathname.replace(/\/+/g, "/");`
`url.pathname = cleanedPath.length > 1 ? cleanedPath.replace(/\/$/, "") : cleanedPath;`. -/
def cleanPath (p : String) : String :=
  if (collapseSlashes p.data).length > 1 then
    String.mk (stripTrailingSlash (collapseSlashes p.data))
  else String.mk (collapseSlashes p.data)

/-- `normalizeCrawlUrl` on a parsed URL.  Guard: scheme must be http/https
(else `undefined`).  Mutations of the source mapped to fields:
`url.hash = ""` → `fragment`; `url.hostname = url.hostname.toLowerCase()` →
`hostname`; the default-port drop → `port`; filter of `utm_*`/tracking keys
then stable sort by key → `query`; slash collapse and trailing-slash strip →
`pathname`. -/
def normalizeCrawlUrl (u : URLRec) : Option URLRec :=
  if u.protocol ≠ "http:" ∧ u.protocol ≠ "https:" then none
  else
    some { protocol := u.protocol,
           hostname := jsToLower u.hostname,
           port :=
             if (u.protocol = "http:" ∧ u.port = "80") ∨
                 (u.protocol = "https:" ∧ u.port = "443") then ""
             else u.port,
           pathname := cleanPath u.pathname,
           query := sortPairs (u.query.filter fun p => keepQueryKey p.1),
           fragment := "" }

section PathLemmas

theorem collapse_head (b : Char) (t : List Char) :
    ∃ xs, collapseSlashes (b :: t) = b :: xs := by
  induction t generalizing b with
  | nil => exact ⟨[], rfl⟩
  | cons c t ih =>
    rw [collapseSlashes]
    by_cases h : b = '/' ∧ c = '/'
    · rw [if_pos h]
      obtain ⟨xs, hxs⟩ := ih c
      exact ⟨xs, by rw [hxs, h.1, h.2]⟩
    · rw [if_neg h]
      exact ⟨_, rfl⟩

theorem collapse_noDouble (l : List Char) :
    hasDoubleSlash (collapseSlashes l) = false := by
  induction l with
  | nil => rfl
  | cons a t ih =>
    cases t with
    | nil => rfl
    | cons b t =>
      rw [collapseSlashes]
      by_cases h : a = '/' ∧ b = '/'
      · rw [if_pos h]
        exact ih
      · rw [if_neg h]
        obtain ⟨xs, hxs⟩ := collapse_head b t
        rw [hxs]
        rw [hxs] at ih
        rw [hasDoubleSlash]
        simp only [Bool.or_eq_false_iff]
        exact ⟨by simp [h], ih⟩

theorem collapse_eq_self (l : List Char) (h : hasDoubleSlash l = false) :
    collapseSlashes l = l := by
  induction l with
  | nil => rfl
  | cons a t ih =>
    cases t with
    | nil => rfl
    | cons b t =>
      rw [hasDoubleSlash] at h
      simp only [Bool.or_eq_false_iff, decide_eq_false_iff_not] at h
      rw [collapseSlashes, if_neg h.1, ih h.2]

theorem strip_shape (b : Char) (t : List Char) :
    stripTrailingSlash (b :: t) = [] ∨
      ∃ xs, stripTrailingSlash (b :: t) = b :: xs := by
  cases t with
  | nil =>
    by_cases h : b = '/'
    · exact Or.inl (by rw [stripTrailingSlash, if_pos h])
    · exact Or.inr ⟨[], by rw [stripTrailingSlash, if_neg h]⟩
  | cons c t => exact Or.inr ⟨_, rfl⟩

theorem strip_nil_iff (b : Char) (t : List Char) :
    stripTrailingSlash (b :: t) = [] ↔ t = [] ∧ b = '/' := by
  cases t with
  | nil =>
    by_cases h : b = '/'
    · simp [stripTrailingSlash, h]
    · simp [stripTrailingSlash, h]
  | cons c t => simp [stripTrailingSlash]

theorem strip_noDouble (l : List Char) (h : hasDoubleSlash l = false) :
    hasDoubleSlash (stripTrailingSlash l) = false := by
  induction l with
  | nil => rfl
  | cons a t ih =>
    cases t with
    | nil =>
      rw [stripTrailingSlash]
      split <;> rfl
    | cons b t =>
      rw [hasDoubleSlash] at h
      simp only [Bool.or_eq_false_iff, decide_eq_false_iff_not] at h
      rw [stripTrailingSlash]
      rcases strip_shape b t with hnil | ⟨xs, hxs⟩
      · rw [hnil]
        rfl
      · rw [hxs]
        rw [hasDoubleSlash]
        simp only [Bool.or_eq_false_iff]
        refine ⟨by simp [h.1], ?_⟩
        rw [← hxs]
        exact ih h.2

theorem strip_strip (l : List Char) (h : hasDoubleSlash l = false) :
    stripTrailingSlash (stripTrailingSlash l) = stripTrailingSlash l := by
  induction l with
  | nil => rfl
  | cons a t ih =>
    cases t with
    | nil =>
      rw [stripTrailingSlash]
      by_cases ha : a = '/'
      · rw [if_pos ha]
        rfl
      · rw [if_neg ha, stripTrailingSlash, if_neg ha]
    | cons b t =>
      rw [hasDoubleSlash] at h
      simp only [Bool.or_eq_false_iff, decide_eq_false_iff_not] at h
      rw [stripTrailingSlash]
      rcases strip_shape b t with hnil | ⟨xs, hxs⟩
      · rw [hnil]
        have hb : b = '/' ∧ t = [] := by
          have := (strip_nil_iff b t).mp hnil
          exact ⟨this.2, this.1⟩
        have ha : a ≠ '/' := fun hc => h.1 ⟨hc, hb.1⟩
        rw [stripTrailingSlash, if_neg ha]
      · rw [hxs, stripTrailingSlash, ← hxs, ih h.2]

theorem strip_getLast (l : List Char) (h : hasDoubleSlash l = false) :
    (stripTrailingSlash l).getLast? ≠ some '/' := by
  induction l with
  | nil => simp [stripTrailingSlash]
  | cons a t ih =>
    cases t with
    | nil =>
      rw [stripTrailingSlash]
      by_cases ha : a = '/'
      · rw [if_pos ha]
        simp
      · rw [if_neg ha]
        simp [ha]
    | cons b t =>
      rw [hasDoubleSlash] at h
      simp only [Bool.or_eq_false_iff, decide_eq_false_iff_not] at h
      rw [stripTrailingSlash]
      rcases strip_shape b t with hnil | ⟨xs, hxs⟩
      · rw [hnil]
        have hb := (strip_nil_iff b t).mp hnil
        have ha : a ≠ '/' := fun hc => h.1 ⟨hc, hb.2⟩
        simp [ha]
      · rw [hxs]
        have := ih h.2
        rw [hxs] at this
        rwa [List.getLast?_cons_cons]

theorem cleanPath_noDouble (p : String) :
    hasDoubleSlash (cleanPath p).data = false := by
  unfold cleanPath
  split
  · exact strip_noDouble _ (collapse_noDouble p.data)
  · exact collapse_noDouble p.data

theorem cleanPath_noTrailing (p : String) (hlen : (cleanPath p).data.length > 1) :
    (cleanPath p).data.getLast? ≠ some '/' := by
  revert hlen
  unfold cleanPath
  split
  · intro _
    exact strip_getLast _ (collapse_noDouble p.data)
  · next hle =>
    intro hlen
    exact absurd hlen hle

theorem cleanPath_idem (p : String) : cleanPath (cleanPath p) = cleanPath p := by
  have hnd := collapse_noDouble p.data
  unfold cleanPath
  split
  · next hlen =>
    have h1 : collapseSlashes (String.mk (stripTrailingSlash (collapseSlashes p.data))).data =
        stripTrailingSlash (collapseSlashes p.data) :=
      collapse_eq_self _ (strip_noDouble _ hnd)
    rw [h1]
    split
    · rw [strip_strip _ hnd]
    · rfl
  · next hlen =>
    have h1 : collapseSlashes (String.mk (collapseSlashes p.data)).data =
        collapseSlashes p.data := collapse_eq_self _ hnd
    rw [h1]
    split
    · next hgt => exact absurd hgt hlen
    · rfl

end PathLemmas

section QueryLemmas

theorem charListLe_refl (l : List Char) : charListLe l l = true := by
  induction l with
  | nil => rfl
  | cons x xs ih =>
    rw [charListLe, if_neg (lt_irrefl x.toNat), if_neg (lt_irrefl x.toNat)]
    exact ih

theorem charListLe_total (a b : List Char) (h : charListLe a b = false) :
    charListLe b a = true := by
  induction a generalizing b with
  | nil => cases h
  | cons x as ih =>
    cases b with
    | nil => rfl
    | cons y bs =>
      rw [charListLe] at h
      rw [charListLe]
      by_cases hxy : x.toNat < y.toNat
      · rw [if_pos hxy] at h
        cases h
      · rw [if_neg hxy] at h
        by_cases hyx : y.toNat < x.toNat
        · rw [if_pos hyx]
        · rw [if_neg hyx] at h
          rw [if_neg hyx, if_neg hxy]
          exact ih bs h

theorem charListLe_trans (a b c : List Char) (hab : charListLe a b = true)
    (hbc : charListLe b c = true) : charListLe a c = true := by
  induction a generalizing b c with
  | nil => rfl
  | cons x as ih =>
    cases b with
    | nil => cases hab
    | cons y bs =>
      cases c with
      | nil => cases hbc
      | cons z cs =>
        rw [charListLe] at hab hbc ⊢
        by_cases hxy : x.toNat < y.toNat
        · by_cases hyz : y.toNat < z.toNat
          · rw [if_pos (by omega)]
          · rw [if_neg hyz] at hbc
            by_cases hzy : z.toNat < y.toNat
            · rw [if_pos hzy] at hbc
              cases hbc
            · rw [if_pos (by omega)]
        · rw [if_neg hxy] at hab
          by_cases hyx : y.toNat < x.toNat
          · rw [if_pos hyx] at hab
            cases hab
          · rw [if_neg hyx] at hab
            by_cases hyz : y.toNat < z.toNat
            · rw [if_pos (by omega)]
            · rw [if_neg hyz] at hbc
              by_cases hzy : z.toNat < y.toNat
              · rw [if_pos hzy] at hbc
                cases hbc
              · rw [if_neg hzy] at hbc
                rw [if_neg (by omega), if_neg (by omega)]
                exact ih bs cs hab hbc

theorem strLe_refl (a : String) : strLe a a = true := charListLe_refl a.data

theorem strLe_total (a b : String) (h : strLe a b = false) : strLe b a = true :=
  charListLe_total a.data b.data h

theorem strLe_trans (a b c : String) (hab : strLe a b = true)
    (hbc : strLe b c = true) : strLe a c = true :=
  charListLe_trans a.data b.data c.data hab hbc

theorem strLe_of_eq (a b : String) (h : a = b) : strLe a b = true := by
  rw [h]
  exact strLe_refl b

theorem mem_insertPair (p x : String × String) (l : List (String × String)) :
    x ∈ insertPair p l ↔ x = p ∨ x ∈ l := by
  induction l with
  | nil => simp [insertPair]
  | cons q qs ih =>
    rw [insertPair]
    split
    · simp
    · simp only [List.mem_cons, ih]
      tauto

theorem mem_sortPairs (x : String × String) (l : List (String × String)) :
    x ∈ sortPairs l ↔ x ∈ l := by
  induction l with
  | nil => simp [sortPairs]
  | cons p ps ih =>
    rw [sortPairs, mem_insertPair]
    simp [ih]

theorem insertPair_sorted (p : String × String) (l : List (String × String))
    (hl : l.Pairwise fun a b => strLe a.1 b.1 = true) :
    (insertPair p l).Pairwise fun a b => strLe a.1 b.1 = true := by
  induction l with
  | nil => simp [insertPair]
  | cons q qs ih =>
    rw [insertPair]
    rcases List.pairwise_cons.mp hl with ⟨hq, hqs⟩
    split
    · next hle =>
      refine List.pairwise_cons.mpr ⟨?_, hl⟩
      intro x hx
      rcases List.mem_cons.mp hx with rfl | hx
      · exact hle
      · exact strLe_trans _ _ _ hle (hq x hx)
    · next hle =>
      refine List.pairwise_cons.mpr ⟨?_, ih hqs⟩
      intro x hx
      rcases (mem_insertPair p x qs).mp hx with rfl | hx
      · exact strLe_total _ _ (by simpa using hle)
      · exact hq x hx

theorem sortPairs_sorted (l : List (String × String)) :
    (sortPairs l).Pairwise fun a b => strLe a.1 b.1 = true := by
  induction l with
  | nil => simp [sortPairs]
  | cons p ps ih => exact insertPair_sorted p (sortPairs ps) ih

theorem insertPair_filter_key (p : String × String) (l : List (String × String))
    (k : String) :
    (insertPair p l).filter (fun q => q.1 == k) =
      if p.1 == k then p :: l.filter (fun q => q.1 == k)
      else l.filter (fun q => q.1 == k) := by
  induction l with
  | nil =>
    rw [insertPair]
    simp only [List.filter]
    split <;> simp_all
  | cons q qs ih =>
    rw [insertPair]
    split
    · next hle =>
      by_cases hpk : (p.1 == k) = true
      · rw [if_pos hpk]
        rw [List.filter_cons, if_pos hpk]
      · rw [if_neg hpk]
        rw [List.filter_cons, if_neg hpk]
    · next hle =>
      rw [List.filter_cons, List.filter_cons, ih]
      by_cases hpk : (p.1 == k) = true
      · have hqk : (q.1 == k) = false := by
          have hne : q.1 ≠ k := by
            intro hq
            rw [beq_iff_eq] at hpk
            have hrefl : strLe p.1 q.1 = true := strLe_of_eq _ _ (by rw [hpk, hq])
            simp [hrefl] at hle
          simp [hne]
        simp [hpk, hqk]
      · simp [hpk]

theorem sortPairs_filter_key (l : List (String × String)) (k : String) :
    (sortPairs l).filter (fun q => q.1 == k) = l.filter (fun q => q.1 == k) := by
  induction l with
  | nil => rfl
  | cons p ps ih =>
    rw [sortPairs, insertPair_filter_key, List.filter_cons]
    by_cases hpk : (p.1 == k) = true
    · rw [if_pos hpk, ih, hpk]
      rfl
    · rw [if_neg hpk, ih]
      simp only [hpk]
      rfl

theorem insertPair_of_le_head (p q : String × String) (qs : List (String × String))
    (hle : strLe p.1 q.1 = true) : insertPair p (q :: qs) = p :: q :: qs := by
  rw [insertPair, if_pos hle]

theorem sortPairs_eq_self (l : List (String × String))
    (hl : l.Pairwise fun a b => strLe a.1 b.1 = true) : sortPairs l = l := by
  induction l with
  | nil => rfl
  | cons p ps ih =>
    rcases List.pairwise_cons.mp hl with ⟨hp, hps⟩
    rw [sortPairs, ih hps]
    cases ps with
    | nil => rfl
    | cons q qs => exact insertPair_of_le_head p q qs (hp q (List.mem_cons_self _ _))

end QueryLemmas

/-- The parse of `"https://Example.com/docs/page/?utm_source=x&b=2&a=1#section"`. -/
def c6Example : URLRec :=
  { protocol := "https:", hostname := "Example.com", port := "",
    pathname := "/docs/page/",
    query := [("utm_source", "x"), ("b", "2"), ("a", "1")],
    fragment := "section" }

/-- The parse of `"https://example.com/docs/page?a=1&b=2"`. -/
def c6Normalized : URLRec :=
  { protocol := "https:", hostname := "example.com", port := "",
    pathname := "/docs/page", query := [("a", "1"), ("b", "2")],
    fragment := "" }

/-- C6: on every URL it accepts, `normalize` keeps the scheme, lowercases the
host, never leaves a default port (`80` on http, `443` on https), drops the
fragment, rewrites the path through `cleanPath` so that no `//` and no
non-root trailing slash remains, and leaves a query with no `utm_*`/tracking
keys, sorted by key, in which the values of each key keep their original
order (stability); on the claim's concrete input it produces
`https://example.com/docs/page?a=1&b=2`. -/
theorem normalizeCrawlUrl_components (u v : URLRec)
    (hv : normalizeCrawlUrl u = some v) :
    v.protocol = u.protocol ∧
    v.hostname = jsToLower u.hostname ∧
    v.fragment = "" ∧
    (¬(v.protocol = "http:" ∧ v.port = "80") ∧
      ¬(v.protocol = "https:" ∧ v.port = "443")) ∧
    v.pathname = cleanPath u.pathname ∧
    hasDoubleSlash v.pathname.data = false ∧
    (v.pathname.data.length > 1 → v.pathname.data.getLast? ≠ some '/') ∧
    (∀ p ∈ v.query, keepQueryKey p.1 = true) ∧
    v.query.Pairwise (fun p q => strLe p.1 q.1 = true) ∧
    (∀ k : String, v.query.filter (fun p => p.1 == k) =
      (u.query.filter fun p => keepQueryKey p.1).filter (fun p => p.1 == k)) ∧
    (normalizeCrawlUrl c6Example).map urlToString =
      some "https://example.com/docs/page?a=1&b=2" := by
  unfold normalizeCrawlUrl at hv
  split at hv
  · cases hv
  · next hcond =>
    rw [Option.some_inj] at hv
    subst hv
    refine ⟨rfl, rfl, rfl, ?_, rfl, cleanPath_noDouble u.pathname,
      cleanPath_noTrailing u.pathname, ?_, sortPairs_sorted _, ?_, by decide⟩
    · constructor
      · rintro ⟨hp, hport⟩
        simp only at hp hport
        revert hport
        split
        · next h80 =>
          intro hport
          exact absurd hport.symm (by decide)
        · next h80 =>
          intro hport
          exact h80 (Or.inl ⟨hp, hport⟩)
      · rintro ⟨hp, hport⟩
        simp only at hp hport
        revert hport
        split
        · next h80 =>
          intro hport
          exact absurd hport.symm (by decide)
        · next h80 =>
          intro hport
          exact h80 (Or.inr ⟨hp, hport⟩)
    · intro p hp
      simp only at hp
      rw [mem_sortPairs] at hp
      exact (List.mem_filter.mp hp).2
    · intro k
      simp only
      rw [sortPairs_filter_key]

/-- Witness for C6 at the claim's concrete URL. -/
theorem normalizeCrawlUrl_components_witness :
    c6Normalized.fragment = "" ∧
      c6Normalized.hostname = jsToLower c6Example.hostname ∧
      (normalizeCrawlUrl c6Example).map urlToString =
        some "https://example.com/docs/page?a=1&b=2" :=
  ⟨(normalizeCrawlUrl_components c6Example c6Normalized (by decide)).2.2.1,
   (normalizeCrawlUrl_components c6Example c6Normalized (by decide)).2.1,
   (normalizeCrawlUrl_components c6Example c6Normalized (by decide)).2.2.2.2.2.2.2.2.2.2⟩

/-- C7: normalization is idempotent — whenever `normalize` accepts a URL,
running it again on the result reproduces that result exactly. -/
theorem normalizeCrawlUrl_idempotent (u v : URLRec)
    (hv : normalizeCrawlUrl u = some v) :
    normalizeCrawlUrl v = some v := by
  unfold normalizeCrawlUrl at hv ⊢
  split at hv
  · cases hv
  · next hcond =>
    rw [Option.some_inj] at hv
    subst hv
    rw [if_neg hcond]
    rw [Option.some_inj, URLRec.mk.injEq]
    refine ⟨rfl, jsToLower_idem u.hostname, ?_, cleanPath_idem u.pathname, ?_, rfl⟩
    · simp only
      split
      · split <;> rfl
      · rfl
    · simp only
      have hkeep : ((sortPairs (u.query.filter fun p => keepQueryKey p.1)).filter
          fun p => keepQueryKey p.1) =
          sortPairs (u.query.filter fun p => keepQueryKey p.1) := by
        rw [List.filter_eq_self]
        intro p hp
        rw [mem_sortPairs] at hp
        exact (List.mem_filter.mp hp).2
      rw [hkeep, sortPairs_eq_self _ (sortPairs_sorted _)]

/-- Witness for C7: idempotence at the claim's concrete URL. -/
theorem normalizeCrawlUrl_idempotent_witness :
    normalizeCrawlUrl c6Normalized = some c6Normalized :=
  normalizeCrawlUrl_idempotent c6Example c6Normalized (by decide)

/-! ### Pages store and the unchanged-page skip — `WebxStore` (part_005) and
`CrawlerService.processJobOnce` (crawler)

`pages` and `links` are lists of rows; `page_json` is carried as the
structured page itself. `savePage` is `INSERT OR REPLACE` keyed on the page
id, then per link `INSERT OR REPLACE` keyed on `(from_page_id, to_url)`.
`fetched_at` is epoch milliseconds (the stored ISO-8601 strings compare
identically). -/

/-- One entry of `page.links`. -/
structure PageLink where
  url : String
  text : String
  rel : Option String
  isInternal : Bool
deriving DecidableEq, Repr

/-- The fields of an `LLMPage` the persistence path consults. -/
structure LLMPageM where
  id : String
  url : String
  title : String
  fetchedAt : Nat
  contentHash : Option String
  keyParagraphs : List String
  links : List PageLink
deriving DecidableEq, Repr

/-- A row of `pages`. -/
structure PageRow where
  id : String
  url : String
  fetchedAt : Nat
  contentHash : Option String
  pageJson : LLMPageM
deriving DecidableEq, Repr

/-- A row of `links` (PK `(from_page_id, to_url)`). -/
structure StoredLink where
  fromPageId : String
  toUrl : String
  text : String
  rel : Option String
  isInternal : Bool
deriving DecidableEq, Repr

/-- The durable store slice the skip path touches. -/
structure Store where
  pages : List PageRow
  links : List StoredLink
deriving DecidableEq, Repr

/-- `WebxStore.savePage(page)`: `pageId = page.id || makeId(page.url)`
(`makeId` hashes seed + `Date.now()`, parameters `h`/`nowMs`);
`contentHash = page.contentHash || hash(title + "\n" + keyParagraphs.join("\n"))`;
INSERT OR REPLACE of the page row, then of each link row. -/
def savePage (h : String → String) (nowMs : Nat) (store : Store)
    (page : LLMPageM) : Store :=
  let pageId := if page.id = "" then h (page.url ++ ":" ++ toString nowMs) else page.id
  let contentHash :=
    match page.contentHash with
    | some c =>
      if c = "" then h (page.title ++ "\n" ++ String.intercalate "\n" page.keyParagraphs)
      else c
    | none => h (page.title ++ "\n" ++ String.intercalate "\n" page.keyParagraphs)
  let row : PageRow :=
    { id := pageId, url := page.url, fetchedAt := page.fetchedAt,
      contentHash := some contentHash,
      pageJson := { page with id := pageId, contentHash := some contentHash } }
  { pages := store.pages.filter (fun r => !(r.id == pageId)) ++ [row],
    links := page.links.foldl
      (fun ls link =>
        ls.filter (fun sl => !(sl.fromPageId == pageId && sl.toUrl == link.url)) ++
          [{ fromPageId := pageId, toUrl := link.url, text := link.text,
             rel := link.rel, isInternal := link.isInternal }])
      store.links }

/-- `ORDER BY fetched_at DESC LIMIT 1`: strictly later rows win, ties resolve
to table order (SQLite leaves them unspecified). -/
def selectLatest : List PageRow → Option PageRow :=
  List.foldl
    (fun best r =>
      match best with
      | none => some r
      | some b => if r.fetchedAt > b.fetchedAt then some r else some b)
    none

/-- `WebxStore.getLatestPageByUrl(url)`: latest `pages` row for the URL,
returning its parsed `page_json`. -/
def getLatestPageByUrl (store : Store) (url : String) : Option LLMPageM :=
  (selectLatest (store.pages.filter fun r => r.url == url)).map (·.pageJson)

/-- The lookup of `processJobOnce`:
`store.getLatestPageByUrl(page.url) ?? store.getLatestPageByUrl(normalizedUrl)`. -/
def previousOf (store : Store) (pageUrl normalizedUrl : String) : Option LLMPageM :=
  match getLatestPageByUrl store pageUrl with
  | some p => some p
  | none => getLatestPageByUrl store normalizedUrl

/-- `Boolean(previous?.contentHash && previous.contentHash === page.contentHash)`:
a missing previous page, a missing or empty stored hash, or differing hashes
all yield `false`. -/
def unchangedFlag (previous : Option LLMPageM) (newHash : Option String) : Bool :=
  match previous with
  | none => false
  | some prev =>
    match prev.contentHash with
    | none => false
    | some ch => !(ch == "") && (newHash == some ch)

/-- Persistence step of `processJobOnce` after fetch/extract:
skip `savePage` exactly when `unchanged`. -/
def persistAfterFetch (h : String → String) (nowMs : Nat) (store : Store)
    (page : LLMPageM) (normalizedUrl : String) : Store :=
  if unchangedFlag (previousOf store page.url normalizedUrl) page.contentHash then store
  else savePage h nowMs store page

/-- The stored hash of the page `processJobOnce` compares against. -/
def previousHash (store : Store) (pageUrl normalizedUrl : String) : Option String :=
  (previousOf store pageUrl normalizedUrl).bind (·.contentHash)

theorem unchangedFlag_eq (store : Store) (pageUrl normalizedUrl : String)
    (ch : String) (hne : ch ≠ "") :
    unchangedFlag (previousOf store pageUrl normalizedUrl) (some ch) =
      (previousHash store pageUrl normalizedUrl == some ch) := by
  unfold previousHash
  cases hprev : previousOf store pageUrl normalizedUrl with
  | none => rfl
  | some prev =>
    show unchangedFlag (some prev) (some ch) = (prev.contentHash == some ch)
    unfold unchangedFlag
    show (match prev.contentHash with
      | none => false
      | some ch2 => !(ch2 == "") && (some ch == some ch2)) =
      (prev.contentHash == some ch)
    cases hch2 : prev.contentHash with
    | none => rfl
    | some ch2 =>
      by_cases he : ch2 = ""
      · subst he
        have h1 : ((some ch : Option String) == some "") = false := by simp [hne]
        have h2 : ((some "" : Option String) == some ch) = false := by
          simp [Ne.symm hne]
        simp [h1, h2]
      · by_cases hc : ch = ch2
        · subst hc
          simp [he]
        · have h1 : ((some ch : Option String) == some ch2) = false := by simp [hc]
          have h2 : ((some ch2 : Option String) == some ch) = false := by
            simp [Ne.symm hc]
          simp [h1, h2]

/-- C2: after fetching and extracting `page` (whose extractor-produced
`contentHash` is a nonempty digest), if the latest stored page — looked up by
the response URL with fallback to the requested URL — carries the same
content hash, the persistence step returns the store untouched (no new
`pages` row, `links` unchanged); otherwise it is exactly `savePage`, which
records a row for the page's URL with that hash. -/
theorem processJobOnce_unchanged_skip (h : String → String) (nowMs : Nat)
    (store : Store) (page : LLMPageM) (normalizedUrl : String) (ch : String)
    (hch : page.contentHash = some ch) (hne : ch ≠ "") :
    (previousHash store page.url normalizedUrl = some ch →
      persistAfterFetch h nowMs store page normalizedUrl = store ∧
      (persistAfterFetch h nowMs store page normalizedUrl).pages = store.pages ∧
      (persistAfterFetch h nowMs store page normalizedUrl).links = store.links) ∧
    (previousHash store page.url normalizedUrl ≠ some ch →
      persistAfterFetch h nowMs store page normalizedUrl = savePage h nowMs store page ∧
      ∃ row ∈ (persistAfterFetch h nowMs store page normalizedUrl).pages,
        row.url = page.url ∧ row.contentHash = some ch ∧
        row.fetchedAt = page.fetchedAt) := by
  have hflag := unchangedFlag_eq store page.url normalizedUrl ch hne
  constructor
  · intro heq
    have : unchangedFlag (previousOf store page.url normalizedUrl) page.contentHash = true := by
      rw [hch, hflag, heq]
      simp
    unfold persistAfterFetch
    rw [if_pos this]
    exact ⟨rfl, rfl, rfl⟩
  · intro hne2
    have : unchangedFlag (previousOf store page.url normalizedUrl) page.contentHash = false := by
      rw [hch, hflag]
      simpa using hne2
    unfold persistAfterFetch
    rw [if_neg (by simp [this])]
    refine ⟨rfl, ?_⟩
    simp only [savePage]
    refine ⟨_, List.mem_append_right _ (List.mem_singleton_self _), rfl, ?_, rfl⟩
    rw [hch]
    dsimp only
    rw [if_neg hne]

/-- A stored page for the C2 witness. -/
def c2Prev : LLMPageM :=
  { id := "p1", url := "https://example.com/a", title := "T", fetchedAt := 100,
    contentHash := some "abc", keyParagraphs := [], links := [] }

/-- The `pages` row holding `c2Prev` for the C2 witness. -/
def c2PrevRow : PageRow :=
  { id := "p1", url := "https://example.com/a", fetchedAt := 100,
    contentHash := some "abc", pageJson := c2Prev }

/-- Store holding `c2PrevRow` for the C2 witness. -/
def c2Store : Store :=
  { pages := [c2PrevRow], links := [] }

/-- The re-fetched page with identical content hash for the C2 witness. -/
def c2New : LLMPageM :=
  { id := "p2", url := "https://example.com/a", title := "T", fetchedAt := 200,
    contentHash := some "abc", keyParagraphs := [], links := [] }

/-- Witness for C2: re-fetching a URL whose extraction yields the stored
content hash leaves the store untouched. -/
theorem processJobOnce_unchanged_skip_witness :
    persistAfterFetch (fun s => s) 0 c2Store c2New "https://example.com/a" = c2Store :=
  ((processJobOnce_unchanged_skip (fun s => s) 0 c2Store c2New
    "https://example.com/a" "abc" (by decide) (by decide)).1 (by decide)).1

/-! ### Action synthesis — `extractActionsFromHtml` in `src/unnamed/part_005` (core)

The cheerio query `$("a[href], button, input[type='submit'], form, input,
textarea, select")` yields the matched elements in document order; that list
enters the model as `nodes : List Elem` carrying each element's tag name,
the attributes the code reads, and its text content.  `buildId` (a sha-256
prefix) is the parameter `h`; URL resolution against the base
(`new URL(candidate, baseUrl).toString()`) is the parameter `resolve`.
Whitespace handling covers the ASCII range of JS `\s`. -/

/-- A DOM element as the synthesizer sees it. -/
structure Elem where
  tagName : String
  attrId : Option String := none
  attrName : Option String := none
  ariaLabel : Option String := none
  classAttr : Option String := none
  typeAttr : Option String := none
  href : Option String := none
  text : String := ""
deriving DecidableEq, Repr

/-- `WebAction.type` values. -/
inductive ActionType where
  | click
  | fill
  | select
  | submit
  | navigate
deriving DecidableEq, Repr

/-- The JSON-schema-shaped `paramsSchema` (property name and type). -/
structure ParamsSchema where
  type : String
  properties : List (String × String)
  required : List String
deriving DecidableEq, Repr

/-- `paramsSchema` of navigate/submit actions. -/
def emptyParamsSchema : ParamsSchema :=
  { type := "object", properties := [], required := [] }

/-- `paramsSchema` of select/fill actions. -/
def valueParamsSchema : ParamsSchema :=
  { type := "object", properties := [("value", "string")], required := ["value"] }

/-- A synthesized `WebAction`. -/
structure WebAction where
  id : String
  type : ActionType
  label : String
  selector : String
  paramsSchema : ParamsSchema
deriving DecidableEq, Repr

/-- JS truthiness for `el.attr(...)`: absent and empty both falsy. -/
def truthy : Option String → Option String
  | none => none
  | some s => if s = "" then none else some s

/-- JS `a || b` on strings. -/
def orElseStr (a b : String) : String :=
  if a = "" then b else a

/-- ASCII whitespace of JS `\s`. -/
def isJsWs (c : Char) : Bool :=
  c = ' ' || c = '\t' || c = '\n' || c = '\r' || c = '\x0b' || c = '\x0c'

/-- Maximal non-whitespace runs, accumulator-style.  Models
`split(/\s+/).map(trim).filter(Boolean)`. -/
def tokensAux : List Char → List Char → List (List Char)
  | [], cur => if cur = [] then [] else [cur.reverse]
  | c :: rest, cur =>
    if isJsWs c then
      if cur = [] then tokensAux rest [] else cur.reverse :: tokensAux rest []
    else tokensAux rest (c :: cur)

/-- Whitespace-separated tokens of a string. -/
def wsTokens (s : String) : List String :=
  (tokensAux s.data []).map String.mk

/-- `readableText(value)`: collapse whitespace runs to single spaces and trim,
i.e. rejoin the tokens. -/
def readableText (s : String) : String :=
  String.intercalate " " (wsTokens s)

/-- `cssEscape(value)`: backslash-escape everything outside `[a-zA-Z0-9_-]`. -/
def cssEscape (s : String) : String :=
  String.mk (s.data.foldr
    (fun c acc => if c.isAlphanum || c = '_' || c = '-' then c :: acc else '\\' :: c :: acc)
    [])

/-- `escapeQuotes(value)`: escape double quotes. -/
def escapeQuotes (s : String) : String :=
  String.mk (s.data.foldr
    (fun c acc => if c = '"' then '\\' :: c :: acc else c :: acc)
    [])

/-- `buildSelector(node, index, $)`: `#id`, else `tag[name="…"]`, else
`tag[aria-label="…"]`, else `tag.` + first two classes, else
`tag:nth-of-type(max(1, index+1))`; text nodes (no tag name) yield none. -/
def buildSelector (node : Elem) (index : Nat) : Option String :=
  if node.tagName = "" then none
  else
    match truthy node.attrId with
    | some i => some ("#" ++ cssEscape i)
    | none =>
      match truthy node.attrName with
      | some nm => some (node.tagName ++ "[name=\"" ++ escapeQuotes nm ++ "\"]")
      | none =>
        match truthy node.ariaLabel with
        | some aria =>
          some (node.tagName ++ "[aria-label=\"" ++ escapeQuotes aria ++ "\"]")
        | none =>
          let classes := (wsTokens (node.classAttr.getD "")).take 2
          if classes ≠ [] then
            some (node.tagName ++ "." ++ String.intercalate "." (classes.map cssEscape))
          else
            some (node.tagName ++ ":nth-of-type(" ++ toString (max 1 (index + 1)) ++ ")")

/-- `normalizeUrl(baseUrl, candidate)` of the extractor: falsy candidate →
none; otherwise the platform resolution (parameter `resolve`). -/
def normalizeUrlM (resolve : String → String → Option String) (baseUrl : String) :
    Option String → Option String
  | none => none
  | some c => if c = "" then none else resolve c baseUrl

/-- The per-node body of the synthesis loop: at most one action per node,
`none` when the node is skipped. -/
def actionFor (resolve : String → String → Option String) (h : String → String)
    (baseUrl : String) (index : Nat) (node : Elem) : Option WebAction :=
  let tag := jsToLower node.tagName
  let text := readableText (orElseStr node.text (orElseStr (node.ariaLabel.getD "")
    (orElseStr (node.attrName.getD "") (orElseStr (node.attrId.getD "") tag))))
  match buildSelector node index with
  | none => none
  | some selector =>
    if tag = "a" then
      match normalizeUrlM resolve baseUrl node.href with
      | none => none
      | some href =>
        some { id := h ("nav:" ++ selector ++ ":" ++ href), type := .navigate,
               label := orElseStr text href, selector := selector,
               paramsSchema := emptyParamsSchema }
    else if tag = "form" ∨ tag = "button" ∨ (tag = "input" ∧ node.typeAttr.getD "" = "submit") then
      some { id := h ("submit:" ++ selector), type := .submit,
             label := orElseStr text "Submit", selector := selector,
             paramsSchema := emptyParamsSchema }
    else if tag = "select" then
      some { id := h ("select:" ++ selector), type := .select,
             label := orElseStr text "Select field", selector := selector,
             paramsSchema := valueParamsSchema }
    else if tag = "input" ∨ tag = "textarea" then
      some { id := h ("fill:" ++ selector), type := .fill,
             label := orElseStr text "Input field", selector := selector,
             paramsSchema := valueParamsSchema }
    else none

/-- The `Map`-based de-duplication: first occurrence of each id wins,
insertion order preserved. -/
def dedupAux (seen : List String) : List WebAction → List WebAction
  | [] => []
  | a :: rest =>
    if seen.contains a.id then dedupAux seen rest
    else a :: dedupAux (a.id :: seen) rest

/-- `extractActionsFromHtml(baseUrl, html)`: first 150 matched nodes in
document order, one candidate action per node, de-duplicated by id, capped
at 80. -/
def extractActionsFromHtml (resolve : String → String → Option String)
    (h : String → String) (baseUrl : String) (nodes : List Elem) : List WebAction :=
  let actions := ((nodes.take 150).enum).filterMap fun p => actionFor resolve h baseUrl p.1 p.2
  (dedupAux [] actions).take 80

theorem contains_iff_mem (l : List String) (a : String) :
    l.contains a = true ↔ a ∈ l := List.elem_iff

theorem dedupAux_subset (seen : List String) (as : List WebAction) (a : WebAction)
    (ha : a ∈ dedupAux seen as) : a ∈ as := by
  induction as generalizing seen with
  | nil => cases ha
  | cons b rest ih =>
    rw [dedupAux] at ha
    split at ha
    · exact List.mem_cons_of_mem _ (ih _ ha)
    · rcases List.mem_cons.mp ha with rfl | ha
      · exact List.mem_cons_self _ _
      · exact List.mem_cons_of_mem _ (ih _ ha)

theorem dedupAux_not_seen (seen : List String) (as : List WebAction) :
    ∀ i ∈ (dedupAux seen as).map (fun a => a.id), i ∉ seen := by
  induction as generalizing seen with
  | nil => simp [dedupAux]
  | cons b rest ih =>
    rw [dedupAux]
    split
    · exact ih seen
    · next hseen =>
      intro i hi
      rw [List.map_cons] at hi
      rcases List.mem_cons.mp hi with rfl | hi2
      · intro hmem
        exact hseen ((contains_iff_mem seen b.id).mpr hmem)
      · intro hmem
        have := ih (b.id :: seen) i hi2
        exact this (List.mem_cons_of_mem _ hmem)

theorem dedupAux_nodup (seen : List String) (as : List WebAction) :
    ((dedupAux seen as).map (fun a => a.id)).Nodup := by
  induction as generalizing seen with
  | nil => simp [dedupAux]
  | cons b rest ih =>
    rw [dedupAux]
    split
    · exact ih seen
    · rw [List.map_cons]
      refine List.nodup_cons.mpr ⟨?_, ih (b.id :: seen)⟩
      intro hmem
      exact dedupAux_not_seen (b.id :: seen) rest b.id hmem (List.mem_cons_self _ _)

/-- C8: `extractActionsFromHtml` is a pure function of the parsed input —
identical inputs yield the identical action list — and its output carries
pairwise-distinct ids (the `Map` de-duplication), holds at most 80 actions,
and consists exactly of actions synthesized by the per-node rule (which hashes
`kind:selector`, with navigate appending the resolved href) on the first 150
nodes in document order. -/
theorem extractActions_deterministic (resolve : String → String → Option String)
    (h : String → String) (baseUrl : String) (nodes : List Elem) :
    (extractActionsFromHtml resolve h baseUrl nodes =
      extractActionsFromHtml resolve h baseUrl nodes) ∧
    ((extractActionsFromHtml resolve h baseUrl nodes).map (fun a => a.id)).Nodup ∧
    (extractActionsFromHtml resolve h baseUrl nodes).length ≤ 80 ∧
    (∀ a ∈ extractActionsFromHtml resolve h baseUrl nodes,
      ∃ idx node, (idx, node) ∈ (nodes.take 150).enum ∧
        actionFor resolve h baseUrl idx node = some a) := by
  refine ⟨rfl, ?_, ?_, ?_⟩
  · unfold extractActionsFromHtml
    rw [List.map_take]
    exact List.Nodup.sublist (List.take_sublist _ _) (dedupAux_nodup _ _)
  · exact List.length_take_le _ _
  · intro a ha
    unfold extractActionsFromHtml at ha
    have h1 := dedupAux_subset _ _ _ (List.mem_of_mem_take ha)
    obtain ⟨p, hp, hpa⟩ := List.mem_filterMap.mp h1
    exact ⟨p.1, p.2, by simpa using hp, hpa⟩

/-- An anchor element for the C8 witness. -/
def c8Anchor : Elem :=
  { tagName := "a", attrId := some "go", href := some "/x", text := "Go" }

/-- The C8 witness node list: the same anchor twice. -/
def c8Nodes : List Elem := [c8Anchor, c8Anchor]

/-- The action the witness anchor synthesizes (hash and resolver are the
identity-style stand-ins of the witness). -/
def c8Action : WebAction :=
  { id := "nav:#go:https://e.com/x", type := .navigate, label := "Go",
    selector := "#go", paramsSchema := emptyParamsSchema }

/-- Witness for C8: on a concrete two-node page the extracted action is
synthesized by the per-node rule on some node of the first 150. -/
theorem extractActions_deterministic_witness :
    ∃ idx node, (idx, node) ∈ (c8Nodes.take 150).enum ∧
      actionFor (fun c b => some (b ++ c)) (fun s => s) "https://e.com" idx node =
        some c8Action := by
  refine (extractActions_deterministic (fun c b => some (b ++ c)) (fun s => s)
    "https://e.com" c8Nodes).2.2.2 c8Action ?_
  decide

/-! ### Crawl options — `CrawlOptionsSchema` (types, part_008) and
`CrawlerService.toRuntimeOptions` (crawler)

`CrawlOptionsSchema` declares exactly seven fields (part_008 lines 152-160):
maxPages, maxDepth, mode, allowDomains, denyDomains, respectRobots,
perDomainDelayMs.  It does NOT declare seedFromSitemaps, maxSitemapUrls or
adaptiveDelay, although the repository's README documents them with defaults
true / 200 / true and the crawler's `CrawlRuntimeOptions` interface declares
them as required.  `z.object(...).parse` strips undeclared keys, so
`parsed.seedFromSitemaps`, `parsed.maxSitemapUrls` and `parsed.adaptiveDelay`
in `toRuntimeOptions` read absent properties: the runtime values are
`undefined`, modelled as `none`. -/

/-- `Mode` (`z.enum(["compact", "full"])`). -/
inductive Mode where
  | compact
  | full
deriving DecidableEq, Repr

/-- The caller-supplied options object; every field optional.  The last three
fields are what a caller following the README may pass. -/
structure CrawlOptionsInput where
  maxPages : Option Int := none
  maxDepth : Option Int := none
  mode : Option Mode := none
  allowDomains : Option (List String) := none
  denyDomains : Option (List String) := none
  respectRobots : Option Bool := none
  perDomainDelayMs : Option Int := none
  seedFromSitemaps : Option Bool := none
  maxSitemapUrls : Option Int := none
  adaptiveDelay : Option Bool := none
deriving DecidableEq, Repr

/-- Output of `CrawlOptionsSchema.parse`: only the declared fields survive
(`z.object` strips unknown keys). -/
structure CrawlOptionsParsed where
  maxPages : Int
  maxDepth : Int
  mode : Mode
  allowDomains : Option (List String)
  denyDomains : Option (List String)
  respectRobots : Bool
  perDomainDelayMs : Int
deriving DecidableEq, Repr

/-- `CrawlOptionsSchema.parse(options)`: defaults
maxPages 100 (int in [1,10000]), maxDepth 2 (int in [0,10]), mode compact,
respectRobots true, perDomainDelayMs 500 (int ≥ 0); failure on a bound
violation. -/
def crawlOptionsParse (o : CrawlOptionsInput) : Except String CrawlOptionsParsed :=
  let maxPages := o.maxPages.getD 100
  if maxPages < 1 ∨ maxPages > 10000 then .error "maxPages out of range"
  else
    let maxDepth := o.maxDepth.getD 2
    if maxDepth < 0 ∨ maxDepth > 10 then .error "maxDepth out of range"
    else
      let perDomainDelayMs := o.perDomainDelayMs.getD 500
      if perDomainDelayMs < 0 then .error "perDomainDelayMs out of range"
      else
        .ok { maxPages := maxPages, maxDepth := maxDepth,
              mode := o.mode.getD .compact,
              allowDomains := o.allowDomains, denyDomains := o.denyDomains,
              respectRobots := o.respectRobots.getD true,
              perDomainDelayMs := perDomainDelayMs }

/-- The crawler's runtime options.  The TS interface declares
`seedFromSitemaps : boolean`, `maxSitemapUrls : number`,
`adaptiveDelay : boolean` as required, but the values actually produced are
`undefined`; the model gives the fields `Option` type to carry that. -/
structure CrawlRuntimeOptionsM where
  maxPages : Int
  maxDepth : Int
  mode : Mode
  allowDomains : Option (List String)
  denyDomains : Option (List String)
  respectRobots : Bool
  perDomainDelayMs : Int
  seedFromSitemaps : Option Bool
  maxSitemapUrls : Option Int
  adaptiveDelay : Option Bool
deriving DecidableEq, Repr

/-- `CrawlerService.toRuntimeOptions(options)`: parse, then copy fields.
`parsed.seedFromSitemaps`, `parsed.maxSitemapUrls` and `parsed.adaptiveDelay`
do not exist on the parsed object, so the copies are `undefined` (`none`). -/
def toRuntimeOptions (options : CrawlOptionsInput) :
    Except String CrawlRuntimeOptionsM :=
  (crawlOptionsParse options).map fun parsed =>
    { maxPages := parsed.maxPages, maxDepth := parsed.maxDepth,
      mode := parsed.mode, allowDomains := parsed.allowDomains,
      denyDomains := parsed.denyDomains, respectRobots := parsed.respectRobots,
      perDomainDelayMs := parsed.perDomainDelayMs,
      seedFromSitemaps := none, maxSitemapUrls := none, adaptiveDelay := none }

/-- The absent/empty options object (`{}` / undefined). -/
def emptyCrawlOptions : CrawlOptionsInput := {}

/-- C9 (code bug): parsing `{}` yields the documented defaults for the seven
declared fields — maxPages 100, maxDepth 2, mode compact, respectRobots true,
perDomainDelayMs 500 — but the runtime options carry `undefined` (not the
documented `true` / `200` / `true`) for seedFromSitemaps, maxSitemapUrls and
adaptiveDelay, because `CrawlOptionsSchema` never declares those fields. -/
theorem crawlOptions_sitemap_defaults_missing :
    crawlOptionsParse emptyCrawlOptions =
      .ok { maxPages := 100, maxDepth := 2, mode := .compact,
            allowDomains := none, denyDomains := none, respectRobots := true,
            perDomainDelayMs := 500 } ∧
    (toRuntimeOptions emptyCrawlOptions).map (fun r => r.seedFromSitemaps) =
      .ok none ∧
    (toRuntimeOptions emptyCrawlOptions).map (fun r => r.maxSitemapUrls) =
      .ok none ∧
    (toRuntimeOptions emptyCrawlOptions).map (fun r => r.adaptiveDelay) =
      .ok none ∧
    (toRuntimeOptions emptyCrawlOptions).map (fun r => r.seedFromSitemaps) ≠
      .ok (some true) ∧
    (toRuntimeOptions emptyCrawlOptions).map (fun r => r.maxSitemapUrls) ≠
      .ok (some 200) ∧
    (toRuntimeOptions emptyCrawlOptions).map (fun r => r.adaptiveDelay) ≠
      .ok (some true) := by
  refine ⟨rfl, rfl, rfl, rfl, ?_, ?_, ?_⟩ <;> intro hc <;>
    rw [show toRuntimeOptions emptyCrawlOptions = Except.ok
      { maxPages := 100, maxDepth := 2, mode := .compact, allowDomains := none,
        denyDomains := none, respectRobots := true, perDomainDelayMs := 500,
        seedFromSitemaps := none, maxSitemapUrls := none,
        adaptiveDelay := none } from rfl] at hc <;>
    exact absurd (Except.ok.inj hc) (by simp)

end OpenWeb
